import Mathlib

/-!
Verification development for the skyweaver-sz weather-art pipeline
(src/src/map.py, src/src/palettes.py, src/src/render.py).

Numpy float32 arithmetic is modelled by exact rationals; 1-D arrays by
lists of rationals.  The Gaussian kernel of `scipy.ndimage.gaussian_filter1d`
has transcendental weights (normalized samples of exp, radius 4 at the default
sigma = 1), so smoothing is parameterized by the kernel `(w, r)`; theorems
hypothesize exactly the properties every such Gaussian kernel has
(symmetry, positivity, total mass 1 over the support).
-/

/-- Model of `np.clip(v, 0, 1)`: numpy computes `minimum(maximum(v, 0), 1)`. -/
def clip01 (v : ℚ) : ℚ := min (max v 0) 1

/-- Model of `normalize_series` from src/src/map.py with explicit bounds `lo`, `hi`
and explicit clip flag (the `None` defaults, which fall back to the data min/max,
are not exercised by `map_features` nor by the claims):
`norm = (x - lo) / (hi - lo) if hi > lo else np.zeros_like(x)`, then clipped
to `[0, 1]` when `clip` is set. -/
def normalize_series (x : List ℚ) (lo hi : ℚ) (clip : Bool) : List ℚ :=
  let norm := if lo < hi then x.map (fun v => (v - lo) / (hi - lo)) else x.map (fun _ => 0)
  if clip then norm.map clip01 else norm

/-- Boundary extension of scipy.ndimage in mode "reflect" (the default of
`gaussian_filter1d`, used by `smooth_series` in src/src/map.py): the input
`(a b c)` extends as `(c b a | a b c | c b a)`, a pattern of period `2n`. -/
def reflectIdx (n : ℕ) (m : ℤ) : ℕ :=
  if n = 0 then 0 else
    let u := m % (2 * (n : ℤ))
    if u < (n : ℤ) then u.toNat else (2 * (n : ℤ) - 1 - u).toNat

/-- Boundary extension of scipy.ndimage in mode "nearest": the input `(a b c)`
extends as `(a a | a b c | c c)`, i.e. the index is clamped. -/
def nearestIdx (n : ℕ) (m : ℤ) : ℕ :=
  if m < 0 then 0 else min m.toNat (n - 1)

/-- Model of the computational core of `scipy.ndimage.gaussian_filter1d`
(a `correlate1d` with an odd symmetric kernel of radius `r` and weights `w`,
boundary handling `ext`): output `i` is the kernel-weighted sum of the input
extended beyond its ends by `ext`. -/
def correlate1d (w : ℤ → ℚ) (r : ℕ) (ext : ℕ → ℤ → ℕ) (x : List ℚ) : List ℚ :=
  (List.range x.length).map fun (i : ℕ) =>
    ((List.range (2 * r + 1)).map fun (j : ℕ) =>
      w ((j : ℤ) - (r : ℤ)) * x.getD (ext x.length ((i : ℤ) + ((j : ℤ) - (r : ℤ)))) 0).sum

/-- Model of `smooth_series` from src/src/map.py: `gaussian_filter1d(x, sigma)` with
the scipy default boundary mode "reflect".  The NaN pre-processing of the source
(`nan_to_num` with the column mean) is the identity on NaN-free input, which is all
a rational model can express. -/
def smooth_series (w : ℤ → ℚ) (r : ℕ) (x : List ℚ) : List ℚ :=
  correlate1d w r reflectIdx x

/-- Modelled from the spec: the same smoothing pass but with edge mode "nearest"
("boundary values extend rather than wrap or zero-pad"), which the spec prescribes
for the feature mapper; src/src/map.py itself leaves the scipy default "reflect". -/
def smooth_series_nearest (w : ℤ → ℚ) (r : ℕ) (x : List ℚ) : List ℚ :=
  correlate1d w r nearestIdx x

/-- Model of the input DataFrame of `map_features`: an hourly UTC index and four
optional numeric columns; a column absent from the frame is `none`. -/
structure WeatherDF where
  index : List ℤ
  temp : Option (List ℚ)
  wind : Option (List ℚ)
  cloud : Option (List ℚ)
  hum : Option (List ℚ)

/-- The four visual-feature channels produced by `map_features`. -/
structure Features where
  amplitude : List ℚ
  drift : List ℚ
  haze : List ℚ
  warmth : List ℚ

/-- Model of `map_features` from src/src/map.py, parameterized by the Gaussian
kernel `(w, r)` of `smooth_series` (the source passes no sigma and so uses the
default sigma = 1.0 kernel).  Each present column is smoothed first and the result
clamp-normalized and affinely remapped; a missing column yields the constant 0.5
series of length `len(df)`. -/
def map_features (w : ℤ → ℚ) (r : ℕ) (df : WeatherDF) : Features × List ℤ :=
  let n := df.index.length
  let def_col : ℚ → List ℚ := fun v => List.replicate n v
  let amplitude := match df.temp with
    | some col =>
        (normalize_series (smooth_series w r col) 10 35 true).map (fun v => 1/4 + 3/4 * v)
    | none => def_col (1/2)
  let drift := match df.wind with
    | some col =>
        (normalize_series (smooth_series w r col) 0 18 true).map (fun v => 1/10 + 9/10 * v)
    | none => def_col (1/2)
  let haze := match df.cloud with
    | some col =>
        (normalize_series (smooth_series w r col) 10 100 true).map (fun v => 3/10 + 7/10 * v)
    | none => def_col (1/2)
  let warmth := match df.hum with
    | some col => normalize_series (smooth_series w r col) 30 95 true
    | none => def_col (1/2)
  (⟨amplitude, drift, haze, warmth⟩, df.index)

/-- Modelled from the spec (section 4.1): the amplitude channel computed in the
order the spec words it — clamp-normalize into [10, 35] first, then smooth — with
the same kernel and the same boundary handling as the code otherwise, so that only
the order of the two passes differs from `map_features`. -/
def amplitude_spec_order (w : ℤ → ℚ) (r : ℕ) (col : List ℚ) : List ℚ :=
  (smooth_series w r (normalize_series col 10 35 true)).map (fun v => 1/4 + 3/4 * v)

/-! ## Palettes (src/src/palettes.py) -/

/-- Componentwise map on an RGB triple. -/
def tmap (f : ℚ → ℚ) (c : ℚ × ℚ × ℚ) : ℚ × ℚ × ℚ := (f c.1, f c.2.1, f c.2.2)

/-- Componentwise zip of two RGB triples. -/
def tzip (f : ℚ → ℚ → ℚ) (c d : ℚ × ℚ × ℚ) : ℚ × ℚ × ℚ :=
  (f c.1 d.1, f c.2.1 d.2.1, f c.2.2 d.2.2)

/-- The `_PRESETS` registry of src/src/palettes.py: three RGB anchor colors per
named palette, already divided by 255 as `get_palette` does right after lookup. -/
def presetStops (name : String) : Option ((ℚ × ℚ × ℚ) × (ℚ × ℚ × ℚ) × (ℚ × ℚ × ℚ)) :=
  if name = "dusk" then
    some ((30/255, 45/255, 80/255), (60/255, 70/255, 120/255), (180/255, 80/255, 100/255))
  else if name = "coral" then
    some ((76/255, 98/255, 130/255), (230/255, 170/255, 120/255), (242/255, 120/255, 100/255))
  else if name = "twilight" then
    some ((40/255, 120/255, 140/255), (70/255, 60/255, 120/255), (200/255, 80/255, 160/255))
  else if name = "deepsea" then
    some ((20/255, 40/255, 80/255), (40/255, 80/255, 100/255), (120/255, 130/255, 140/255))
  else none

/-- Model of `np.linspace(0, 1, n)`: the empty list for `n = 0`, the single point 0
for `n = 1`, and `i / (n - 1)` otherwise. -/
def linspace01 (n : ℕ) : List ℚ :=
  if n ≤ 1 then List.replicate n 0
  else (List.range n).map fun (i : ℕ) => (i : ℚ) / ((n : ℚ) - 1)

/-- Model of `get_palette` from src/src/palettes.py: an unknown name falls back to
"dusk"; the base ramp linearly interpolates the three anchors over two segments
(`np.piecewise` on `x < 0.5` / `x >= 0.5`); the accent bias (with the clipped
accent strength) has three palette-specific branches applied sequentially exactly
as the source does; the result is clipped to `[0, 1]` per channel. -/
def get_palette (name : String) (n : ℕ) (accent : ℚ) : List (ℚ × ℚ × ℚ) :=
  let name1 := if (presetStops name).isSome then name else "dusk"
  let stops := (presetStops name1).getD ((0, 0, 0), (0, 0, 0), (0, 0, 0))
  let c0 := stops.1
  let c1 := stops.2.1
  let c2 := stops.2.2
  let xs := linspace01 n
  let base : List (ℚ × ℚ × ℚ) := xs.map fun t =>
    if t < 1/2 then tzip (fun a b => (1 - t * 2) * a + (t * 2) * b) c0 c1
    else tzip (fun a b => (1 - (t - 1/2) * 2) * a + ((t - 1/2) * 2) * b) c1 c2
  let a := min (max accent 0) 1
  let biased : List (ℚ × ℚ × ℚ) :=
    if 0 < a then
      if name1 = "dusk" then
        (base.zip xs).map fun p =>
          let wt := (max 0 ((p.2 - 9/10) * 10)) ^ 2
          let c := tzip (fun l v => l + (v - l) * (wt * a * (8/10))) p.1 (1, 4/10, 3/10)
          tmap (fun l => l + (1 - l) * (wt * a * (6/10))) c
      else if name1 = "deepsea" then
        (base.zip xs).map fun p =>
          let wt := p.2 ^ 3
          tzip (fun l v => l + (v - l) * (wt * a * (3/10))) p.1 (8/10, 9/10, 1)
      else
        (base.zip xs).map fun p =>
          let wt := p.2 ^ 2
          let c := tzip (fun l v => l + (v - l) * (wt * a * (5/10))) p.1 (1, 7/10, 5/10)
          tmap (fun l => l + (1 - l) * (wt * a * (2/10))) c
    else base
  biased.map (tmap clip01)

/-- A numpy floating-point scalar: an exact rational value, or NaN.  (Infinities
do not arise in the claims; NaN does, because the spec requires `apply_palette`
not to crash on NaN pixels.) -/
inductive PyFloat where
  | num (q : ℚ)
  | nan
deriving DecidableEq

/-- Scaling a numpy scalar by a rational constant, as `img01 * (n - 1)` does
per element: NaN propagates through arithmetic. -/
def PyFloat.mulQ (v : PyFloat) (s : ℚ) : PyFloat :=
  match v with
  | .num q => .num (q * s)
  | .nan => .nan

/-- Flat model of a numpy float ndarray: a shape and the row-major data, whose
entries may be NaN. -/
structure NDArray where
  shape : List ℕ
  data : List PyFloat
deriving DecidableEq

/-- The two kinds of python exception `apply_palette` can raise. -/
inductive PyErr where
  | valueError (msg : String)
  | indexError
deriving DecidableEq

/-- Truncation toward zero, the behavior of numpy `.astype(int)` on a finite
float. -/
def int_trunc (q : ℚ) : ℤ := if q < 0 then ⌈q⌉ else ⌊q⌋

/-- The behavior of numpy `.astype(int)`: truncation toward zero on a finite
value; on NaN the resulting integer is unspecified (platform-dependent, for
example the minimum int64 on x86), modelled by the arbitrary parameter
`nanCast`. -/
def astype_int (nanCast : ℤ) : PyFloat → ℤ
  | .num q => int_trunc q
  | .nan => nanCast

/-- Applies a fallible per-pixel function to every pixel in order, propagating the
first raised exception, as the vectorized numpy row lookup would. -/
def mapPix (f : PyFloat → Except PyErr (List PyFloat)) :
    List PyFloat → Except PyErr (List (List PyFloat))
  | [] => .ok []
  | v :: t =>
      match f v with
      | .error e => .error e
      | .ok y =>
          match mapPix f t with
          | .error e => .error e
          | .ok ys => .ok (y :: ys)

/-- The per-pixel lookup of `apply_palette`: with `n = lut.shape[0]`, the row index
is `np.clip((v * (n - 1)).astype(int), 0, n - 1)` — truncation toward zero on a
finite value, the unspecified integer `nanCast` on NaN — then clamped into
`[0, n - 1]`, and the pixel becomes that LUT row.  A row index outside `[0, n)`
(reachable only for an `(0, 3)` LUT) raises IndexError. -/
def palPix (nanCast : ℤ) (lut : NDArray) (v : PyFloat) : Except PyErr (List PyFloat) :=
  let n := lut.shape.getD 0 0
  let idx : ℤ := min (max (astype_int nanCast (v.mulQ ((n : ℚ) - 1))) 0) ((n : ℤ) - 1)
  if 0 ≤ idx ∧ idx < (n : ℤ) then
    Except.ok [lut.data.getD (3 * idx.toNat) (.num 0),
      lut.data.getD (3 * idx.toNat + 1) (.num 0),
      lut.data.getD (3 * idx.toNat + 2) (.num 0)]
  else Except.error PyErr.indexError

/-- Model of `apply_palette` from src/src/palettes.py: a ValueError unless the
image is 2-D and the LUT is 2-D with 3 columns; then every pixel (NaN pixels
included) is replaced by its LUT row (`palPix`), giving an array of shape
`(h, w, 3)`.  `nanCast` is the unspecified integer that `.astype(int)` produces
from NaN. -/
def apply_palette (nanCast : ℤ) (img01 lut : NDArray) : Except PyErr NDArray :=
  if img01.shape.length ≠ 2 then .error (.valueError "img01 must be a 2D grayscale image")
  else if lut.shape.length ≠ 2 ∨ lut.shape.getD 1 0 ≠ 3 then
    .error (.valueError "lut must be an array of shape (n,3)")
  else (mapPix (palPix nanCast lut) img01.data).map
    fun rows => ⟨img01.shape ++ [3], rows.flatten⟩

/-! ## Rendering (src/src/render.py) -/

/-- The per-frame feature-interpolation loop of `make_animation` in
src/src/render.py: for each sample index `i` in `range(len(times))` and each
in-between slot `k` in `range(inbetweens + 1)`, `alpha = k / (inbetweens + 1) if
inbetweens > 0 else 0` and each channel is interpolated by
`arr[i] * (1 - alpha) + arr[i + 1] * alpha` when `i < len(arr) - 1`, else held flat
at `arr[i]`.  One tuple is produced per appended frame. -/
def animation_frames (f : Features) (times : List ℤ) (inbetweens : ℕ) :
    List (ℚ × ℚ × ℚ × ℚ) :=
  (List.range times.length).flatMap fun (i : ℕ) =>
    (List.range (inbetweens + 1)).map fun (k : ℕ) =>
      let alpha : ℚ := if 0 < inbetweens then (k : ℚ) / ((inbetweens : ℚ) + 1) else 0
      let interp := fun (arr : List ℚ) =>
        if (i : ℤ) < (arr.length : ℤ) - 1 then
          arr.getD i 0 * (1 - alpha) + arr.getD (i + 1) 0 * alpha
        else arr.getD i 0
      (interp f.amplitude, interp f.drift, interp f.haze, interp f.warmth)

/-- Abstract pure coherent-noise backend, the type of `noise.pnoise2` applied as
`pnoise2(x, y, octaves, persistence, lacunarity, repeatx, repeaty, base)`. -/
def Pnoise2 : Type := ℚ → ℚ → ℕ → ℚ → ℚ → ℕ → ℕ → ℕ → ℚ

/-- Draws `k` uniform values from the global PRNG modelled by `rand`, threading the
state, in the order `np.random.rand` fills a row-major array. -/
def drawRow (rand : ℕ → ℚ × ℕ) : ℕ → ℕ → List ℚ × ℕ
  | 0, s => ([], s)
  | k + 1, s =>
      let p := rand s
      let q := drawRow rand k p.2
      (p.1 :: q.1, q.2)

/-- Draws an `h × w` matrix of uniform values, row by row. -/
def drawMat (rand : ℕ → ℚ × ℕ) (w : ℕ) : ℕ → ℕ → List (List ℚ) × ℕ
  | 0, s => ([], s)
  | h + 1, s =>
      let p := drawRow rand w s
      let q := drawMat rand w h p.2
      (p.1 :: q.1, q.2)

/-- Draws `steps` matrices of shape `h × w`, slice by slice, as
`np.random.rand(steps, h, w)` does. -/
def drawCube (rand : ℕ → ℚ × ℕ) (h w : ℕ) : ℕ → ℕ → List (List (List ℚ)) × ℕ
  | 0, s => ([], s)
  | t + 1, s =>
      let p := drawMat rand w h s
      let q := drawCube rand h w t p.2
      (p.1 :: q.1, q.2)

/-- Minimum of all entries of a stack of matrices (0 for an empty stack), as
`arr.min()` of a nonempty numpy array. -/
def cubeMin (c : List (List (List ℚ))) : ℚ :=
  let all := c.flatMap (fun m => m.flatMap id)
  all.foldr min (all.headD 0)

/-- Maximum of all entries of a stack of matrices (0 for an empty stack). -/
def cubeMax (c : List (List (List ℚ))) : ℚ :=
  let all := c.flatMap (fun m => m.flatMap id)
  all.foldr max (all.headD 0)

/-- Joint min-max normalization of a stack of matrices with the epsilon guard of
src/src/render.py: `(arrs - arrs.min()) / (arrs.max() - arrs.min() + 1e-8)`. -/
def cubeNormalize (c : List (List (List ℚ))) : List (List (List ℚ)) :=
  let lo := cubeMin c
  let hi := cubeMax c
  c.map fun m => m.map fun row => row.map fun v => (v - lo) / (hi - lo + 1/100000000)

/-- Model of `_gen_noise_field_vectorized` from src/src/render.py over an abstract
deterministic backend: `hasNoise` is the import-probe flag `_HAS_NOISE`, `pn` the
pure `noise.pnoise2` function, `rngInit` and `rand` model the global numpy PRNG
(`np.random.seed` builds a fresh state from the seed, `np.random.rand` draws and
advances it), and `blur` is the fixed `gaussian_filter(-, sigma=6)` of the fallback
path.  `rngState` is the incoming global PRNG state; the function starts with
`np.random.seed(seed)`, so the incoming state is discarded.  Returns the normalized
slices together with the outgoing global PRNG state. -/
def gen_noise_field_vectorized (hasNoise : Bool) (pn : Pnoise2) (rngInit : ℕ → ℕ)
    (rand : ℕ → ℚ × ℕ) (blur : List (List ℚ) → List (List ℚ)) (rngState : ℕ)
    (h w steps seed octaves : ℕ) (persistence lacunarity : ℚ) :
    List (List (List ℚ)) × ℕ :=
  let scale : ℚ := 2/25
  let s0 := rngInit seed
  if hasNoise then
    let arrs := (List.range steps).map fun (t : ℕ) =>
      let phase : ℚ := (t : ℚ) / (steps : ℚ) * 8
      (List.range h).map fun (y : ℕ) =>
        (List.range w).map fun (x : ℕ) =>
          pn ((x : ℚ) * scale + phase) ((y : ℚ) * scale + phase)
            octaves persistence lacunarity w h seed
    (cubeNormalize arrs, s0)
  else
    let p := drawCube rand h w steps s0
    let arrs := p.1.map blur
    (cubeNormalize arrs, p.2)

/-- Modelled from the spec (section 4.2): the per-pixel lookup with a *rounded*
LUT index `round((n-1) * value)` clamped to the valid range, as the spec words it
(the rounding of NaN is as unspecified as its truncation, hence the same
`nanCast`); src/src/palettes.py truncates instead. -/
def palPixRound (nanCast : ℤ) (lut : NDArray) (v : PyFloat) :
    Except PyErr (List PyFloat) :=
  let n := lut.shape.getD 0 0
  let rounded : ℤ := match v.mulQ ((n : ℚ) - 1) with
    | .num q => round q
    | .nan => nanCast
  let idx : ℤ := min (max rounded 0) ((n : ℤ) - 1)
  if 0 ≤ idx ∧ idx < (n : ℤ) then
    Except.ok [lut.data.getD (3 * idx.toNat) (.num 0),
      lut.data.getD (3 * idx.toNat + 1) (.num 0),
      lut.data.getD (3 * idx.toNat + 2) (.num 0)]
  else Except.error PyErr.indexError

/-- Modelled from the spec (section 4.2): `apply` with the rounded LUT index of
`palPixRound` in place of the truncated one. -/
def apply_palette_round (nanCast : ℤ) (img01 lut : NDArray) : Except PyErr NDArray :=
  if img01.shape.length ≠ 2 then .error (.valueError "img01 must be a 2D grayscale image")
  else if lut.shape.length ≠ 2 ∨ lut.shape.getD 1 0 ≠ 3 then
    .error (.valueError "lut must be an array of shape (n,3)")
  else (mapPix (palPixRound nanCast lut) img01.data).map
    fun rows => ⟨img01.shape ++ [3], rows.flatten⟩

/-- Sample mean of a list (as `np.mean`); 0 for the empty list. -/
def lmean (x : List ℚ) : ℚ := x.sum / x.length

/-- Population variance of a list (as `np.var`): mean squared deviation from the
mean; 0 for the empty list. -/
def lvar (x : List ℚ) : ℚ := ((x.map fun v => (v - lmean x) ^ 2).sum) / x.length

/-- The list is constant (all elements equal). -/
def isConstList (x : List ℚ) : Prop := ∀ a ∈ x, ∀ b ∈ x, a = b

instance (x : List ℚ) : Decidable (isConstList x) := by
  unfold isConstList
  infer_instance

/-- A concrete radius-1 symmetric normalized positive kernel (weights 1/4, 1/2, 1/4),
standing in for a narrow Gaussian in concrete evaluations. -/
def exKernel1 : ℤ → ℚ :=
  fun k => if k = 0 then 1/2 else if k = 1 ∨ k = -1 then 1/4 else 0

/-- A concrete radius-2 symmetric normalized positive kernel
(weights 1/8, 1/4, 1/4, 1/4, 1/8) used to exhibit boundary-mode differences. -/
def exKernel2 : ℤ → ℚ :=
  fun k => if k = 0 then 1/4 else if k = 1 ∨ k = -1 then 1/4 else
    if k = 2 ∨ k = -2 then 1/8 else 0

/-! ## Basic length lemmas -/

theorem correlate1d_length (w : ℤ → ℚ) (r : ℕ) (ext : ℕ → ℤ → ℕ) (x : List ℚ) :
    (correlate1d w r ext x).length = x.length := by
  unfold correlate1d
  rw [List.length_map, List.length_range]

theorem smooth_series_length (w : ℤ → ℚ) (r : ℕ) (x : List ℚ) :
    (smooth_series w r x).length = x.length :=
  correlate1d_length w r reflectIdx x

theorem normalize_series_length (x : List ℚ) (lo hi : ℚ) (c : Bool) :
    (normalize_series x lo hi c).length = x.length := by
  unfold normalize_series
  split <;> split <;> simp

theorem normalize_series_clip_eq (x : List ℚ) (lo hi : ℚ) (h : lo < hi) :
    normalize_series x lo hi true = x.map fun v => clip01 ((v - lo) / (hi - lo)) := by
  simp [normalize_series, h, List.map_map]

/-! ## C6: normalization contract -/

/-- C6: with bounds `hi > lo`, `normalize_series` returns
`clip((x - lo)/(hi - lo), 0, 1)` elementwise (hence 0 at `lo` and 1 at `hi`), and
with `hi = lo` it returns the all-zero series instead of dividing by zero. -/
theorem normalize_series_contract (x : List ℚ) (lo hi : ℚ) :
    (lo < hi → normalize_series x lo hi true
      = x.map fun v => clip01 ((v - lo) / (hi - lo))) ∧
    (hi = lo → normalize_series x lo hi true = List.replicate x.length 0) ∧
    (lo < hi → normalize_series [lo, hi] lo hi true = [0, 1]) := by
  refine ⟨fun h => ?_, fun h => ?_, fun h => ?_⟩
  · exact normalize_series_clip_eq x lo hi h
  · subst h
    simp [normalize_series, lt_irrefl, clip01, List.map_map, Function.comp_def,
      List.map_const']
  · have hne : hi - lo ≠ 0 := sub_ne_zero.mpr (ne_of_gt h)
    simp [normalize_series, h, clip01, div_self hne]

/-- Witness for C6 at concrete input: the bounds 10 < 35, endpoint values map
to 0 and 1. -/
theorem normalize_series_contract_witness :
    normalize_series [(10 : ℚ), 35] 10 35 true = [0, 1] :=
  (normalize_series_contract [10, 35] 10 35).2.2 (by norm_num)

/-! ## C5: totality, lengths and missing-column defaults of map_features -/

/-- C5: for any subset of present columns (each present column having the frame
length), every output channel of `map_features` has length `len(df)`, and every
channel whose source column is missing is the constant 0.5 series. -/
theorem map_features_missing_columns (w : ℤ → ℚ) (r : ℕ) (df : WeatherDF)
    (ht : ∀ col, df.temp = some col → col.length = df.index.length)
    (hw : ∀ col, df.wind = some col → col.length = df.index.length)
    (hc : ∀ col, df.cloud = some col → col.length = df.index.length)
    (hh : ∀ col, df.hum = some col → col.length = df.index.length) :
    ((map_features w r df).1.amplitude.length = df.index.length ∧
     (map_features w r df).1.drift.length = df.index.length ∧
     (map_features w r df).1.haze.length = df.index.length ∧
     (map_features w r df).1.warmth.length = df.index.length) ∧
    ((df.temp = none →
        (map_features w r df).1.amplitude = List.replicate df.index.length (1/2)) ∧
     (df.wind = none →
        (map_features w r df).1.drift = List.replicate df.index.length (1/2)) ∧
     (df.cloud = none →
        (map_features w r df).1.haze = List.replicate df.index.length (1/2)) ∧
     (df.hum = none →
        (map_features w r df).1.warmth = List.replicate df.index.length (1/2))) := by
  constructor
  · refine ⟨?_, ?_, ?_, ?_⟩
    · cases hT : df.temp with
      | none => simp [map_features, hT]
      | some col =>
          simp [map_features, hT, normalize_series_length, smooth_series_length, ht col hT]
    · cases hW : df.wind with
      | none => simp [map_features, hW]
      | some col =>
          simp [map_features, hW, normalize_series_length, smooth_series_length, hw col hW]
    · cases hC : df.cloud with
      | none => simp [map_features, hC]
      | some col =>
          simp [map_features, hC, normalize_series_length, smooth_series_length, hc col hC]
    · cases hH : df.hum with
      | none => simp [map_features, hH]
      | some col =>
          simp [map_features, hH, normalize_series_length, smooth_series_length, hh col hH]
  · refine ⟨fun hT => ?_, fun hW => ?_, fun hC => ?_, fun hH => ?_⟩
    · simp [map_features, hT]
    · simp [map_features, hW]
    · simp [map_features, hC]
    · simp [map_features, hH]

/-- Witness for C5 at a concrete frame with a present temp column and the other
three columns missing. -/
theorem map_features_missing_columns_witness :
    (map_features exKernel1 1 ⟨[100, 200], some [20, 30], none, none, none⟩).1.drift
      = List.replicate 2 (1/2) := by
  have h := map_features_missing_columns exKernel1 1
    ⟨[100, 200], some [20, 30], none, none, none⟩
    (fun col hcol => by simp only [Option.some.injEq] at hcol; subst hcol; rfl)
    (fun col hcol => by exact Option.noConfusion hcol)
    (fun col hcol => by exact Option.noConfusion hcol)
    (fun col hcol => by exact Option.noConfusion hcol)
  exact h.2.2.1 rfl

/-! ## C7: frame count and zero-inbetween exactness -/

/-- C7: the frame loop of `make_animation` produces exactly
`len(times) * (inbetweens + 1)` frames, and with `inbetweens = 0` the
interpolation fraction is 0 on every frame, so each frame carries exactly the
feature values of its sample. -/
theorem flatMap_singleton_map (l : List ℕ) (f : ℕ → ℚ × ℚ × ℚ × ℚ) :
    (l.flatMap fun x => [f x]) = l.map f := by
  induction l with
  | nil => rfl
  | cons a t ih => simp [List.flatMap_cons, ih]

theorem animation_frames_contract (f : Features) (times : List ℤ) (inbetweens : ℕ) :
    (animation_frames f times inbetweens).length = times.length * (inbetweens + 1) ∧
    animation_frames f times 0 = (List.range times.length).map
      (fun i => (f.amplitude.getD i 0, f.drift.getD i 0,
                 f.haze.getD i 0, f.warmth.getD i 0)) := by
  constructor
  · simp [animation_frames, Function.comp_def, List.map_const', List.sum_replicate,
      smul_eq_mul]
  · simp [animation_frames, flatMap_singleton_map]

/-! ## C8: unknown palette name falls back to dusk -/

/-- C8: for any name not among the presets, `get_palette` is total and returns
exactly the LUT built for the default name "dusk" with the same size and accent. -/
theorem get_palette_unknown_fallback (name : String) (n : ℕ) (accent : ℚ)
    (h : presetStops name = none) :
    get_palette name n accent = get_palette "dusk" n accent := by
  simp [get_palette, h]

/-- Witness for C8: the end-to-end scenario of the spec with the name
"nonexistent". -/
theorem get_palette_unknown_fallback_witness :
    get_palette "nonexistent" 3 (1/2) = get_palette "dusk" 3 (1/2) :=
  get_palette_unknown_fallback "nonexistent" 3 (1/2) rfl

/-! ## C1: the smoothing pass of map.py is not the nearest-mode pass of the spec -/

/-- C1: evaluation of the code smoothing at a concrete input.  With a symmetric
normalized kernel of radius 2 the boundary handling is observable: the scipy
default mode "reflect" used by `smooth_series` gives `[1/2, 1/2]` on `[0, 1]`,
while the edge mode "nearest" prescribed by the spec gives `[3/8, 5/8]` — the
two passes differ.  (`map_features` moreover accepts no smoothing-sigma argument
at all, so the kernel cannot come from a `smoothingSigma` of the map contract;
src/src/main.py even calls `map_features(df, sigma=args.sigma)`, which raises a
TypeError against the signature in src/src/map.py.) -/
theorem smooth_series_edge_mode_not_nearest :
    smooth_series exKernel2 2 [0, 1] = [1/2, 1/2] ∧
    smooth_series_nearest exKernel2 2 [0, 1] = [3/8, 5/8] ∧
    smooth_series exKernel2 2 [0, 1] ≠ smooth_series_nearest exKernel2 2 [0, 1] := by
  have hA : smooth_series exKernel2 2 [0, 1] = [1/2, 1/2] := by
    norm_num [smooth_series, correlate1d, List.range_succ, reflectIdx, exKernel2]
  have hB : smooth_series_nearest exKernel2 2 [0, 1] = [3/8, 5/8] := by
    norm_num [smooth_series_nearest, correlate1d, List.range_succ, nearestIdx, exKernel2]
  refine ⟨hA, hB, ?_⟩
  rw [hA, hB]
  norm_num

/-! ## C2: map.py smooths first and normalizes second -/

/-- Counterexample for C2: on the temperature column `[0, 100]` with a concrete
radius-1 kernel, `map_features` (smooth, then clamp-normalize) produces
`[7/10, 1]`, while the order claimed by the spec (clamp-normalize, then smooth)
produces `[7/16, 13/16]`; the claimed order does not describe the code. -/
theorem map_features_order_counterexample :
    (map_features exKernel1 1 ⟨[0, 1], some [0, 100], none, none, none⟩).1.amplitude
      = [7/10, 1] ∧
    amplitude_spec_order exKernel1 1 [0, 100] = [7/16, 13/16] ∧
    (map_features exKernel1 1 ⟨[0, 1], some [0, 100], none, none, none⟩).1.amplitude
      ≠ amplitude_spec_order exKernel1 1 [0, 100] := by
  have hA : (map_features exKernel1 1 ⟨[0, 1], some [0, 100], none, none, none⟩).1.amplitude
      = [7/10, 1] := by
    norm_num [map_features, smooth_series, correlate1d, List.range_succ, reflectIdx,
      exKernel1, normalize_series, clip01]
  have hB : amplitude_spec_order exKernel1 1 [0, 100] = [7/16, 13/16] := by
    norm_num [amplitude_spec_order, smooth_series, correlate1d, List.range_succ,
      reflectIdx, exKernel1, normalize_series, clip01]
  refine ⟨hA, hB, ?_⟩
  rw [hA, hB]
  norm_num

/-- C2 as amended: in the per-channel pipeline of `map_features`, for every one of
the four weather columns that is present, the Gaussian smoothing pass comes first
and the clamp-normalization (with the channel-specific range and affine remap) is
applied to the smoothed series. -/
theorem map_features_smooth_then_normalize (w : ℤ → ℚ) (r : ℕ) (df : WeatherDF) :
    (∀ col, df.temp = some col → (map_features w r df).1.amplitude
      = (smooth_series w r col).map fun v => 1/4 + 3/4 * clip01 ((v - 10) / (35 - 10))) ∧
    (∀ col, df.wind = some col → (map_features w r df).1.drift
      = (smooth_series w r col).map fun v => 1/10 + 9/10 * clip01 ((v - 0) / (18 - 0))) ∧
    (∀ col, df.cloud = some col → (map_features w r df).1.haze
      = (smooth_series w r col).map fun v => 3/10 + 7/10 * clip01 ((v - 10) / (100 - 10))) ∧
    (∀ col, df.hum = some col → (map_features w r df).1.warmth
      = (smooth_series w r col).map fun v => clip01 ((v - 30) / (95 - 30))) := by
  refine ⟨fun col h => ?_, fun col h => ?_, fun col h => ?_, fun col h => ?_⟩
  · have h1 := normalize_series_clip_eq (smooth_series w r col) 10 35 (by norm_num)
    simp [map_features, h, h1, List.map_map, Function.comp_def]
  · have h1 := normalize_series_clip_eq (smooth_series w r col) 0 18 (by norm_num)
    simp [map_features, h, h1, List.map_map, Function.comp_def]
  · have h1 := normalize_series_clip_eq (smooth_series w r col) 10 100 (by norm_num)
    simp [map_features, h, h1, List.map_map, Function.comp_def]
  · have h1 := normalize_series_clip_eq (smooth_series w r col) 30 95 (by norm_num)
    simp [map_features, h, h1]

/-- Witness for the amended C2 at a concrete frame with all four columns present,
exercising all four channels. -/
theorem map_features_smooth_then_normalize_witness :
    ((map_features exKernel1 1 ⟨[7], some [20], some [5], some [50], some [60]⟩).1.amplitude
      = (smooth_series exKernel1 1 [20]).map
          fun v => 1/4 + 3/4 * clip01 ((v - 10) / (35 - 10))) ∧
    ((map_features exKernel1 1 ⟨[7], some [20], some [5], some [50], some [60]⟩).1.drift
      = (smooth_series exKernel1 1 [5]).map
          fun v => 1/10 + 9/10 * clip01 ((v - 0) / (18 - 0))) ∧
    ((map_features exKernel1 1 ⟨[7], some [20], some [5], some [50], some [60]⟩).1.haze
      = (smooth_series exKernel1 1 [50]).map
          fun v => 3/10 + 7/10 * clip01 ((v - 10) / (100 - 10))) ∧
    ((map_features exKernel1 1 ⟨[7], some [20], some [5], some [50], some [60]⟩).1.warmth
      = (smooth_series exKernel1 1 [60]).map
          fun v => clip01 ((v - 30) / (95 - 30))) :=
  have h := map_features_smooth_then_normalize exKernel1 1
    ⟨[7], some [20], some [5], some [50], some [60]⟩
  ⟨h.1 [20] rfl, h.2.1 [5] rfl, h.2.2.1 [50] rfl, h.2.2.2 [60] rfl⟩

/-! ## C10 and C3: apply_palette error behavior and index arithmetic -/

theorem mapPix_ok (f : PyFloat → Except PyErr (List PyFloat)) (g : PyFloat → List PyFloat)
    (l : List PyFloat) (hf : ∀ v ∈ l, f v = .ok (g v)) : mapPix f l = .ok (l.map g) := by
  induction l with
  | nil => rfl
  | cons a t ih =>
      have ha := hf a (List.mem_cons_self a t)
      have ht := ih fun v hv => hf v (List.mem_cons_of_mem a hv)
      simp [mapPix, ha, ht]

theorem mapPix_no_valueError (f : PyFloat → Except PyErr (List PyFloat)) (l : List PyFloat)
    (hf : ∀ v, (∃ y, f v = .ok y) ∨ f v = .error .indexError) (msg : String) :
    mapPix f l ≠ .error (.valueError msg) := by
  induction l with
  | nil => simp [mapPix]
  | cons a t ih =>
      rcases hf a with ⟨y, hy⟩ | hy
      · rcases hmt : mapPix f t with e | ys
        · simp [mapPix, hy, hmt]
          intro hcontra
          exact ih (by rw [hmt, hcontra])
        · simp [mapPix, hy, hmt]
      · simp [mapPix, hy]

theorem palPix_ok_or_indexError (nanCast : ℤ) (lut : NDArray) (v : PyFloat) :
    (∃ y, palPix nanCast lut v = .ok y) ∨ palPix nanCast lut v = .error .indexError := by
  simp only [palPix]
  split
  · exact Or.inl ⟨_, rfl⟩
  · exact Or.inr rfl

theorem palPix_ok_of_pos (nanCast : ℤ) (lut : NDArray) (n : ℕ) (hs : lut.shape = [n, 3])
    (hn : 1 ≤ n) (v : PyFloat) :
    palPix nanCast lut v = .ok
      (let idx := (min (max (astype_int nanCast (v.mulQ ((n : ℚ) - 1))) 0)
        ((n : ℤ) - 1)).toNat
       [lut.data.getD (3 * idx) (.num 0), lut.data.getD (3 * idx + 1) (.num 0),
        lut.data.getD (3 * idx + 2) (.num 0)]) := by
  have hn0 : lut.shape.getD 0 0 = n := by rw [hs]; rfl
  have hcond : 0 ≤ min (max (astype_int nanCast (v.mulQ ((n : ℚ) - 1))) 0) ((n : ℤ) - 1) ∧
      min (max (astype_int nanCast (v.mulQ ((n : ℚ) - 1))) 0) ((n : ℤ) - 1) < (n : ℤ) := by
    constructor
    · exact le_min (le_max_right _ 0) (by omega)
    · have h := min_le_right (max (astype_int nanCast (v.mulQ ((n : ℚ) - 1))) 0) ((n : ℤ) - 1)
      omega
  simp only [palPix, hn0]
  rw [if_pos hcond]

/-- C10: `apply_palette` raises ValueError exactly when the image is not 2-D or the
LUT is not 2-D with 3 columns; on every 2-D image — NaN and out-of-range pixel
values included, for every possible integer result `nanCast` of casting NaN — and
every `(n, 3)` LUT with `n ≥ 1`, it returns, without raising, an array whose shape
is the image shape extended by a 3-channel axis. -/
theorem apply_palette_contract (nanCast : ℤ) (img lut : NDArray) :
    ((∃ msg, apply_palette nanCast img lut = .error (.valueError msg)) ↔
      (img.shape.length ≠ 2 ∨ lut.shape.length ≠ 2 ∨ lut.shape.getD 1 0 ≠ 3)) ∧
    (∀ hh ww n, img.shape = [hh, ww] → lut.shape = [n, 3] → 1 ≤ n →
      ∃ out, apply_palette nanCast img lut = .ok out ∧ out.shape = [hh, ww, 3]) := by
  constructor
  · by_cases h1 : img.shape.length = 2
    · by_cases h2 : lut.shape.length = 2 ∧ lut.shape.getD 1 0 = 3
      · have hC1 : ¬(img.shape.length ≠ 2) := by simp [h1]
        have hC2 : ¬(lut.shape.length ≠ 2 ∨ lut.shape.getD 1 0 ≠ 3) := by
          push_neg
          exact ⟨h2.1, h2.2⟩
        constructor
        · rintro ⟨msg, hmsg⟩
          unfold apply_palette at hmsg
          rw [if_neg hC1, if_neg hC2] at hmsg
          rcases hmp : mapPix (palPix nanCast lut) img.data with e | rows
          · rw [hmp] at hmsg
            simp [Except.map] at hmsg
            exact absurd
              (show mapPix (palPix nanCast lut) img.data = Except.error (.valueError msg) by
                rw [hmp, hmsg])
              (mapPix_no_valueError (palPix nanCast lut) img.data
                (palPix_ok_or_indexError nanCast lut) msg)
          · rw [hmp] at hmsg
            simp [Except.map] at hmsg
        · intro hfalse
          exact absurd hfalse (by push_neg; exact ⟨h1, h2.1, h2.2⟩)
      · have hC2 : lut.shape.length ≠ 2 ∨ lut.shape.getD 1 0 ≠ 3 := by
          rcases Decidable.not_and_iff_or_not.mp h2 with h | h
          · exact Or.inl h
          · exact Or.inr h
        have hC1 : ¬(img.shape.length ≠ 2) := by simp [h1]
        constructor
        · intro _
          exact Or.inr hC2
        · intro _
          refine ⟨"lut must be an array of shape (n,3)", ?_⟩
          unfold apply_palette
          rw [if_neg hC1, if_pos hC2]
    · constructor
      · intro _
        exact Or.inl h1
      · intro _
        refine ⟨"img01 must be a 2D grayscale image", ?_⟩
        unfold apply_palette
        rw [if_pos h1]
  · intro hh ww n hsi hsl hn
    have hC1 : ¬(img.shape.length ≠ 2) := by rw [hsi]; simp
    have hC2 : ¬(lut.shape.length ≠ 2 ∨ lut.shape.getD 1 0 ≠ 3) := by rw [hsl]; simp
    have hmp := mapPix_ok (palPix nanCast lut) _ img.data
      (fun v _ => palPix_ok_of_pos nanCast lut n hsl hn v)
    refine ⟨⟨img.shape ++ [3], (img.data.map fun v =>
      let idx := (min (max (astype_int nanCast (v.mulQ ((n : ℚ) - 1))) 0)
        ((n : ℤ) - 1)).toNat
      [lut.data.getD (3 * idx) (.num 0), lut.data.getD (3 * idx + 1) (.num 0),
        lut.data.getD (3 * idx + 2) (.num 0)]).flatten⟩, ?_, ?_⟩
    · unfold apply_palette
      rw [if_neg hC1, if_neg hC2, hmp]
      rfl
    · simp [hsi]

/-- Witness for C10 at a concrete 1-by-2 image whose first pixel is NaN (with the
x86 value of the unspecified NaN-to-int cast, the minimum int64) and a concrete
(2, 3) LUT. -/
theorem apply_palette_contract_witness :
    ∃ out, apply_palette (-9223372036854775808) ⟨[1, 2], [.nan, .num (3/4)]⟩
        ⟨[2, 3], [.num 0, .num 0, .num 0, .num 1, .num 1, .num 1]⟩ = .ok out ∧
      out.shape = [1, 2, 3] :=
  (apply_palette_contract (-9223372036854775808) ⟨[1, 2], [.nan, .num (3/4)]⟩
    ⟨[2, 3], [.num 0, .num 0, .num 0, .num 1, .num 1, .num 1]⟩).2
    1 2 2 rfl rfl (by norm_num)

/-- Counterexample for C3: at pixel value 3/5 with a 2-entry LUT, the code
(truncating index, `astype(int)`) selects LUT row 0, while the claimed index
`round((n-1) * value) = 1` selects row 1; the outputs differ. -/
theorem apply_palette_truncates_not_rounds :
    apply_palette 0 ⟨[1, 1], [.num (3/5)]⟩
        ⟨[2, 3], [.num 0, .num 0, .num 0, .num 1, .num 1, .num 1]⟩
      = .ok ⟨[1, 1, 3], [.num 0, .num 0, .num 0]⟩ ∧
    apply_palette_round 0 ⟨[1, 1], [.num (3/5)]⟩
        ⟨[2, 3], [.num 0, .num 0, .num 0, .num 1, .num 1, .num 1]⟩
      = .ok ⟨[1, 1, 3], [.num 1, .num 1, .num 1]⟩ ∧
    apply_palette 0 ⟨[1, 1], [.num (3/5)]⟩
        ⟨[2, 3], [.num 0, .num 0, .num 0, .num 1, .num 1, .num 1]⟩
      ≠ apply_palette_round 0 ⟨[1, 1], [.num (3/5)]⟩
        ⟨[2, 3], [.num 0, .num 0, .num 0, .num 1, .num 1, .num 1]⟩ := by
  have hA : apply_palette 0 ⟨[1, 1], [.num (3/5)]⟩
      ⟨[2, 3], [.num 0, .num 0, .num 0, .num 1, .num 1, .num 1]⟩
      = .ok ⟨[1, 1, 3], [.num 0, .num 0, .num 0]⟩ := by
    have hf : int_trunc ((3 : ℚ) / 5) = 0 := by
      simp only [int_trunc]
      rw [if_neg (by norm_num : ¬((3 : ℚ) / 5 < 0))]
      norm_num
    norm_num [apply_palette, mapPix, palPix, PyFloat.mulQ, astype_int, hf]
    rfl
  have hB : apply_palette_round 0 ⟨[1, 1], [.num (3/5)]⟩
      ⟨[2, 3], [.num 0, .num 0, .num 0, .num 1, .num 1, .num 1]⟩
      = .ok ⟨[1, 1, 3], [.num 1, .num 1, .num 1]⟩ := by
    have hf : round ((3 : ℚ) / 5) = 1 := by
      rw [round_eq]
      norm_num
    norm_num [apply_palette_round, mapPix, palPixRound, PyFloat.mulQ, hf]
    rfl
  refine ⟨hA, hB, ?_⟩
  rw [hA, hB]
  intro hcontra
  simp at hcontra

/-- C3 as amended: on every 2-D image and `(n, 3)` LUT with `n ≥ 1`, each pixel
value `v` is replaced by the LUT entry at index `clip(trunc((n-1) * v), 0, n-1)`
— truncation toward zero, not rounding — and no out-of-range or NaN pixel value
crashes: the truncation of an out-of-range value, and the unspecified integer
`nanCast` that casting NaN yields, are both clamped into the valid range before
the lookup. -/
theorem apply_palette_trunc_contract (nanCast : ℤ) (img lut : NDArray) (hh ww n : ℕ)
    (h1 : img.shape = [hh, ww]) (h2 : lut.shape = [n, 3]) (h3 : 1 ≤ n) :
    apply_palette nanCast img lut = .ok ⟨[hh, ww, 3], (img.data.map fun v =>
      let idx := (min (max (astype_int nanCast (v.mulQ ((n : ℚ) - 1))) 0)
        ((n : ℤ) - 1)).toNat
      [lut.data.getD (3 * idx) (.num 0), lut.data.getD (3 * idx + 1) (.num 0),
        lut.data.getD (3 * idx + 2) (.num 0)]).flatten⟩ := by
  have hC1 : ¬(img.shape.length ≠ 2) := by rw [h1]; simp
  have hC2 : ¬(lut.shape.length ≠ 2 ∨ lut.shape.getD 1 0 ≠ 3) := by rw [h2]; simp
  have hmp := mapPix_ok (palPix nanCast lut) _ img.data
    (fun v _ => palPix_ok_of_pos nanCast lut n h2 h3 v)
  unfold apply_palette
  rw [if_neg hC1, if_neg hC2, hmp]
  simp [Except.map, h1]

/-- Witness for the amended C3 at a concrete image holding an out-of-range pixel
value 2 and a NaN pixel, with the x86 value of the unspecified NaN-to-int cast:
no crash, truncated-then-clamped indices. -/
theorem apply_palette_trunc_contract_witness :
    apply_palette (-9223372036854775808) ⟨[2, 1], [.num 2, .nan]⟩
        ⟨[2, 3], [.num 0, .num 0, .num 0, .num 1, .num 1, .num 1]⟩
      = .ok ⟨[2, 1, 3], (([.num 2, .nan] : List PyFloat).map fun v =>
        let idx := (min (max (astype_int (-9223372036854775808)
          (v.mulQ ((2 : ℚ) - 1))) 0) ((2 : ℤ) - 1)).toNat
        [([.num 0, .num 0, .num 0, .num 1, .num 1, .num 1] : List PyFloat).getD
            (3 * idx) (.num 0),
         ([.num 0, .num 0, .num 0, .num 1, .num 1, .num 1] : List PyFloat).getD
            (3 * idx + 1) (.num 0),
         ([.num 0, .num 0, .num 0, .num 1, .num 1, .num 1] : List PyFloat).getD
            (3 * idx + 2) (.num 0)]).flatten⟩ :=
  apply_palette_trunc_contract (-9223372036854775808) ⟨[2, 1], [.num 2, .nan]⟩
    ⟨[2, 3], [.num 0, .num 0, .num 0, .num 1, .num 1, .num 1]⟩
    2 1 2 rfl rfl (by norm_num)

/-! ## C9: noise-field generation is deterministic -/

/-- C9: with a fixed backend (a pure `pnoise2`, a PRNG seeding function and draw
function, and the fixed fallback blur), two calls of
`_gen_noise_field_vectorized` with the same generation arguments return identical
multi-slice arrays regardless of the incoming global PRNG state: the function
starts with `np.random.seed(seed)`, so its output depends only on the seed and
shape parameters. -/
theorem gen_noise_field_deterministic (hasNoise : Bool) (pn : Pnoise2)
    (rngInit : ℕ → ℕ) (rand : ℕ → ℚ × ℕ) (blur : List (List ℚ) → List (List ℚ))
    (s1 s2 : ℕ) (h w steps seed octaves : ℕ) (persistence lacunarity : ℚ) :
    (gen_noise_field_vectorized hasNoise pn rngInit rand blur s1
      h w steps seed octaves persistence lacunarity).1
    = (gen_noise_field_vectorized hasNoise pn rngInit rand blur s2
      h w steps seed octaves persistence lacunarity).1 := rfl

/-! ## C4 infrastructure -/

theorem list_sum_getD (l : List ℚ) : l.sum = ∑ i ∈ Finset.range l.length, l.getD i 0 := by
  induction l with
  | nil => simp
  | cons a t ih =>
      rw [List.sum_cons, List.length_cons, Finset.sum_range_succ', ih]
      simp [List.getD]
      exact add_comm _ _

theorem sum_map_range (n : ℕ) (f : ℕ → ℚ) :
    ((List.range n).map f).sum = ∑ i ∈ Finset.range n, f i := by
  induction n with
  | zero => simp
  | succ m ih => rw [List.range_succ, List.map_append, List.sum_append,
      Finset.sum_range_succ, ih]; simp

theorem getD_map_range (n : ℕ) (f : ℕ → ℚ) (i : ℕ) (hi : i < n) :
    ((List.range n).map f).getD i 0 = f i := by
  rw [List.getD_eq_getElem?_getD, List.getElem?_map, List.getElem?_range hi]
  rfl

theorem correlate1d_getD (w : ℤ → ℚ) (r : ℕ) (ext : ℕ → ℤ → ℕ) (x : List ℚ)
    (i : ℕ) (hi : i < x.length) :
    (correlate1d w r ext x).getD i 0
      = ∑ j ∈ Finset.range (2 * r + 1),
          w ((j : ℤ) - (r : ℤ)) * x.getD (ext x.length ((i : ℤ) + ((j : ℤ) - (r : ℤ)))) 0 := by
  unfold correlate1d
  rw [getD_map_range _ _ i hi, sum_map_range]

theorem sum_range_eq_sum_Icc (r : ℕ) (f : ℤ → ℚ) :
    ∑ j ∈ Finset.range (2 * r + 1), f ((j : ℤ) - (r : ℤ))
      = ∑ k ∈ Finset.Icc (-(r : ℤ)) (r : ℤ), f k := by
  refine Finset.sum_nbij' (fun j => (j : ℤ) - (r : ℤ)) (fun k => (k + r).toNat)
    ?_ ?_ ?_ ?_ ?_
  · intro j hj
    rw [Finset.mem_range] at hj
    dsimp only
    rw [Finset.mem_Icc]
    omega
  · intro k hk
    rw [Finset.mem_Icc] at hk
    dsimp only
    rw [Finset.mem_range]
    omega
  · intro j hj
    rw [Finset.mem_range] at hj
    dsimp only
    omega
  · intro k hk
    rw [Finset.mem_Icc] at hk
    dsimp only
    omega
  · intro j hj
    rfl

theorem reflectIdx_lt (n : ℕ) (hn : 0 < n) (m : ℤ) : reflectIdx n m < n := by
  unfold reflectIdx
  rw [if_neg (Nat.pos_iff_ne_zero.mp hn)]
  have h2n : (0 : ℤ) < 2 * (n : ℤ) := by omega
  have h0 := Int.emod_nonneg m (by omega : (2 * (n : ℤ)) ≠ 0)
  have h1 := Int.emod_lt_of_pos m h2n
  dsimp only
  split
  · omega
  · omega

theorem reflectIdx_self (n : ℕ) (i : ℕ) (hi : i < n) : reflectIdx n (i : ℤ) = i := by
  unfold reflectIdx
  rw [if_neg (by omega : ¬(n = 0))]
  have hmod : (i : ℤ) % (2 * (n : ℤ)) = (i : ℤ) := Int.emod_eq_of_lt (by omega) (by omega)
  dsimp only
  rw [hmod, if_pos (by omega : (i : ℤ) < (n : ℤ))]
  omega

theorem reflectIdx_emod (n : ℕ) (m : ℤ) :
    reflectIdx n (m % (2 * (n : ℤ))) = reflectIdx n m := by
  unfold reflectIdx
  by_cases hn : n = 0
  · rw [if_pos hn, if_pos hn]
  · rw [if_neg hn, if_neg hn]
    rw [Int.emod_emod_of_dvd m (dvd_refl _)]

theorem reflectIdx_reflect (n : ℕ) (m : ℤ) :
    reflectIdx n (-1 - m) = reflectIdx n m := by
  unfold reflectIdx
  by_cases hn : n = 0
  · rw [if_pos hn, if_pos hn]
  · rw [if_neg hn, if_neg hn]
    have h2n : (0 : ℤ) < 2 * (n : ℤ) := by omega
    have hne : (2 * (n : ℤ)) ≠ 0 := by omega
    have hkey : (-1 - m) % (2 * (n : ℤ)) = 2 * (n : ℤ) - 1 - m % (2 * (n : ℤ)) := by
      have h0 := Int.emod_nonneg m hne
      have h1 := Int.emod_lt_of_pos m h2n
      have hdecomp : m % (2 * (n : ℤ)) = m - 2 * (n : ℤ) * (m / (2 * (n : ℤ))) := by
        have := Int.emod_add_ediv m (2 * (n : ℤ))
        omega
      have : (-1 - m) % (2 * (n : ℤ))
          = (2 * (n : ℤ) - 1 - m % (2 * (n : ℤ))) % (2 * (n : ℤ)) := by
        conv_lhs => rw [show (-1 - m) = (2 * (n : ℤ) - 1 - m % (2 * (n : ℤ)))
          + (2 * (n : ℤ)) * (-(m / (2 * (n : ℤ))) - 1) by rw [hdecomp]; ring]
        rw [Int.add_mul_emod_self_left]
      rw [this]
      exact Int.emod_eq_of_lt (by omega) (by omega)
    rw [hkey]
    dsimp only
    have h0 := Int.emod_nonneg m hne
    have h1 := Int.emod_lt_of_pos m h2n
    by_cases hcase : m % (2 * (n : ℤ)) < (n : ℤ)
    · rw [if_neg (by omega), if_pos hcase]
      omega
    · rw [if_pos (by omega), if_neg hcase]

theorem sum_Ico_int_cast (n : ℕ) (f : ℤ → ℚ) :
    ∑ m ∈ Finset.Ico (0 : ℤ) (n : ℤ), f m = ∑ j ∈ Finset.range n, f (j : ℤ) := by
  refine Finset.sum_nbij' (fun m => m.toNat) (fun j => (j : ℤ)) ?_ ?_ ?_ ?_ ?_
  · intro m hm
    rw [Finset.mem_Ico] at hm
    dsimp only
    rw [Finset.mem_range]
    omega
  · intro j hj
    rw [Finset.mem_range] at hj
    dsimp only
    rw [Finset.mem_Ico]
    omega
  · intro m hm
    rw [Finset.mem_Ico] at hm
    dsimp only
    omega
  · intro j hj
    dsimp only
    omega
  · intro m hm
    rw [Finset.mem_Ico] at hm
    dsimp only
    rw [Int.toNat_of_nonneg hm.1]

theorem sum_shift_window (n : ℕ) (a : ℤ) (g : ℤ → ℚ) :
    ∑ i ∈ Finset.range n, g ((i : ℤ) + a) = ∑ m ∈ Finset.Ico a (a + (n : ℤ)), g m := by
  refine Finset.sum_nbij' (fun i => (i : ℤ) + a) (fun m => (m - a).toNat) ?_ ?_ ?_ ?_ ?_
  · intro i hi
    rw [Finset.mem_range] at hi
    dsimp only
    rw [Finset.mem_Ico]
    omega
  · intro m hm
    rw [Finset.mem_Ico] at hm
    dsimp only
    rw [Finset.mem_range]
    omega
  · intro i hi
    dsimp only
    omega
  · intro m hm
    rw [Finset.mem_Ico] at hm
    dsimp only
    omega
  · intro i hi
    rfl

theorem sum_window (n : ℕ) (hn : 0 < n) (d : ℕ → ℚ) (a : ℤ) :
    ∑ m ∈ Finset.Ico a (a + 2 * (n : ℤ)), d (reflectIdx n m)
      = 2 * ∑ j ∈ Finset.range n, d j := by
  have hbase : ∑ m ∈ Finset.Ico a (a + 2 * (n : ℤ)), d (reflectIdx n m)
      = ∑ v ∈ Finset.Ico (0 : ℤ) (2 * (n : ℤ)), d (reflectIdx n v) := by
    refine Finset.sum_nbij' (fun m => m % (2 * (n : ℤ)))
      (fun v => a + (v - a) % (2 * (n : ℤ))) ?_ ?_ ?_ ?_ ?_
    · intro m hm
      dsimp only
      rw [Finset.mem_Ico]
      exact ⟨Int.emod_nonneg m (by omega), Int.emod_lt_of_pos m (by omega)⟩
    · intro v hv
      rw [Finset.mem_Ico] at hv
      dsimp only
      rw [Finset.mem_Ico]
      have h0 := Int.emod_nonneg (v - a) (show (2 * (n : ℤ)) ≠ 0 by omega)
      have h1 := Int.emod_lt_of_pos (v - a) (show (0 : ℤ) < 2 * (n : ℤ) by omega)
      omega
    · intro m hm
      rw [Finset.mem_Ico] at hm
      dsimp only
      have hdc := Int.emod_add_ediv m (2 * (n : ℤ))
      have hstep : (m % (2 * (n : ℤ)) - a) % (2 * (n : ℤ)) = (m - a) % (2 * (n : ℤ)) := by
        conv_rhs => rw [show m - a = (m % (2 * (n : ℤ)) - a)
          + (2 * (n : ℤ)) * (m / (2 * (n : ℤ))) from by linear_combination -hdc]
        rw [Int.add_mul_emod_self_left]
      have hid : (m - a) % (2 * (n : ℤ)) = m - a := Int.emod_eq_of_lt (by omega) (by omega)
      omega
    · intro v hv
      rw [Finset.mem_Ico] at hv
      dsimp only
      have hdc := Int.emod_add_ediv (v - a) (2 * (n : ℤ))
      have hstep : a + (v - a) % (2 * (n : ℤ))
          = v + (2 * (n : ℤ)) * (-((v - a) / (2 * (n : ℤ)))) := by
        linear_combination hdc
      rw [hstep, Int.add_mul_emod_self_left]
      exact Int.emod_eq_of_lt (by omega) (by omega)
    · intro m hm
      dsimp only
      rw [reflectIdx_emod]
  have hfirst : ∑ m ∈ Finset.Ico (0 : ℤ) (n : ℤ), d (reflectIdx n m)
      = ∑ j ∈ Finset.range n, d j := by
    rw [sum_Ico_int_cast n (fun m => d (reflectIdx n m))]
    refine Finset.sum_congr rfl ?_
    intro j hj
    rw [Finset.mem_range] at hj
    rw [reflectIdx_self n j hj]
  have hsecond : ∑ m ∈ Finset.Ico (n : ℤ) (2 * (n : ℤ)), d (reflectIdx n m)
      = ∑ j ∈ Finset.range n, d j := by
    have hval : ∀ m ∈ Finset.Ico (n : ℤ) (2 * (n : ℤ)),
        d (reflectIdx n m) = d ((2 * (n : ℤ) - 1 - m).toNat) := by
      intro m hm
      rw [Finset.mem_Ico] at hm
      congr 1
      unfold reflectIdx
      rw [if_neg (by omega : ¬(n = 0))]
      have hmod : m % (2 * (n : ℤ)) = m := Int.emod_eq_of_lt (by omega) (by omega)
      dsimp only
      rw [hmod, if_neg (by omega : ¬(m < (n : ℤ)))]
    rw [Finset.sum_congr rfl hval]
    refine Finset.sum_nbij' (fun m => (2 * (n : ℤ) - 1 - m).toNat)
      (fun j => 2 * (n : ℤ) - 1 - (j : ℤ)) ?_ ?_ ?_ ?_ ?_
    · intro m hm
      rw [Finset.mem_Ico] at hm
      dsimp only
      rw [Finset.mem_range]
      omega
    · intro j hj
      rw [Finset.mem_range] at hj
      dsimp only
      rw [Finset.mem_Ico]
      omega
    · intro m hm
      rw [Finset.mem_Ico] at hm
      dsimp only
      omega
    · intro j hj
      rw [Finset.mem_range] at hj
      dsimp only
      omega
    · intro m hm
      rfl
  have hunion : Finset.Ico (0 : ℤ) (n : ℤ) ∪ Finset.Ico (n : ℤ) (2 * (n : ℤ))
      = Finset.Ico (0 : ℤ) (2 * (n : ℤ)) :=
    Finset.Ico_union_Ico_eq_Ico (by omega) (by omega)
  have hdisj : Disjoint (Finset.Ico (0 : ℤ) (n : ℤ)) (Finset.Ico (n : ℤ) (2 * (n : ℤ))) :=
    Finset.Ico_disjoint_Ico_consecutive 0 (n : ℤ) (2 * (n : ℤ))
  rw [hbase, ← hunion, Finset.sum_union hdisj, hfirst, hsecond]
  ring

theorem sum_window_pair (n : ℕ) (hn : 0 < n) (d : ℕ → ℚ) (k : ℤ) :
    (∑ i ∈ Finset.range n, d (reflectIdx n ((i : ℤ) + k)))
      + (∑ i ∈ Finset.range n, d (reflectIdx n ((i : ℤ) + -k)))
      = 2 * ∑ j ∈ Finset.range n, d j := by
  rw [sum_shift_window n k (fun m => d (reflectIdx n m)),
    sum_shift_window n (-k) (fun m => d (reflectIdx n m))]
  have hrefl : ∑ m ∈ Finset.Ico (-k) (-k + (n : ℤ)), d (reflectIdx n m)
      = ∑ m ∈ Finset.Ico (k - (n : ℤ)) k, d (reflectIdx n m) := by
    refine Finset.sum_nbij' (fun m => -1 - m) (fun m => -1 - m) ?_ ?_ ?_ ?_ ?_
    · intro m hm
      rw [Finset.mem_Ico] at hm
      dsimp only
      rw [Finset.mem_Ico]
      omega
    · intro m hm
      rw [Finset.mem_Ico] at hm
      dsimp only
      rw [Finset.mem_Ico]
      omega
    · intro m hm
      dsimp only
      omega
    · intro m hm
      dsimp only
      omega
    · intro m hm
      dsimp only
      rw [reflectIdx_reflect]
  rw [hrefl]
  have hunion : Finset.Ico (k - (n : ℤ)) k ∪ Finset.Ico k (k + (n : ℤ))
      = Finset.Ico (k - (n : ℤ)) (k + (n : ℤ)) :=
    Finset.Ico_union_Ico_eq_Ico (by omega) (by omega)
  have hdisj : Disjoint (Finset.Ico (k - (n : ℤ)) k) (Finset.Ico k (k + (n : ℤ))) :=
    Finset.Ico_disjoint_Ico_consecutive _ _ _
  have hwin := sum_window n hn d (k - (n : ℤ))
  rw [show k - (n : ℤ) + 2 * (n : ℤ) = k + (n : ℤ) by ring] at hwin
  calc (∑ m ∈ Finset.Ico k (k + (n : ℤ)), d (reflectIdx n m))
      + ∑ m ∈ Finset.Ico (k - (n : ℤ)) k, d (reflectIdx n m)
      = ∑ m ∈ Finset.Ico (k - (n : ℤ)) (k + (n : ℤ)), d (reflectIdx n m) := by
        rw [← hunion, Finset.sum_union hdisj]
        ring
    _ = 2 * ∑ j ∈ Finset.range n, d j := hwin

theorem kernel_column (n : ℕ) (hn : 0 < n) (d : ℕ → ℚ) (w : ℤ → ℚ) (r : ℕ)
    (hsym : ∀ k ∈ Finset.Icc (-(r : ℤ)) (r : ℤ), w (-k) = w k)
    (hsum : ∑ k ∈ Finset.Icc (-(r : ℤ)) (r : ℤ), w k = 1) :
    ∑ k ∈ Finset.Icc (-(r : ℤ)) (r : ℤ),
        w k * ∑ i ∈ Finset.range n, d (reflectIdx n ((i : ℤ) + k))
      = ∑ j ∈ Finset.range n, d j := by
  set S : ℤ → ℚ := fun k => ∑ i ∈ Finset.range n, d (reflectIdx n ((i : ℤ) + k)) with hS
  have hneg : ∑ k ∈ Finset.Icc (-(r : ℤ)) (r : ℤ), w k * S k
      = ∑ k ∈ Finset.Icc (-(r : ℤ)) (r : ℤ), w (-k) * S (-k) := by
    refine Finset.sum_nbij' (fun k => -k) (fun k => -k) ?_ ?_ ?_ ?_ ?_
    · intro k hk
      rw [Finset.mem_Icc] at hk
      dsimp only
      rw [Finset.mem_Icc]
      omega
    · intro k hk
      rw [Finset.mem_Icc] at hk
      dsimp only
      rw [Finset.mem_Icc]
      omega
    · intro k hk
      dsimp only
      omega
    · intro k hk
      dsimp only
      omega
    · intro k hk
      dsimp only
      rw [neg_neg]
  have hpair : ∀ k ∈ Finset.Icc (-(r : ℤ)) (r : ℤ),
      w k * S k + w (-k) * S (-k) = w k * (2 * ∑ j ∈ Finset.range n, d j) := by
    intro k hk
    rw [hsym k hk]
    rw [show w k * S k + w k * S (-k) = w k * (S k + S (-k)) by ring]
    rw [sum_window_pair n hn d k]
  have h2 : 2 * ∑ k ∈ Finset.Icc (-(r : ℤ)) (r : ℤ), w k * S k
      = 2 * ∑ j ∈ Finset.range n, d j := by
    calc 2 * ∑ k ∈ Finset.Icc (-(r : ℤ)) (r : ℤ), w k * S k
        = (∑ k ∈ Finset.Icc (-(r : ℤ)) (r : ℤ), w k * S k)
          + ∑ k ∈ Finset.Icc (-(r : ℤ)) (r : ℤ), w (-k) * S (-k) := by
          rw [← hneg]
          ring
      _ = ∑ k ∈ Finset.Icc (-(r : ℤ)) (r : ℤ), (w k * S k + w (-k) * S (-k)) := by
          rw [Finset.sum_add_distrib]
      _ = ∑ k ∈ Finset.Icc (-(r : ℤ)) (r : ℤ), w k * (2 * ∑ j ∈ Finset.range n, d j) := by
          exact Finset.sum_congr rfl hpair
      _ = (∑ k ∈ Finset.Icc (-(r : ℤ)) (r : ℤ), w k) * (2 * ∑ j ∈ Finset.range n, d j) := by
          rw [← Finset.sum_mul]
      _ = 2 * ∑ j ∈ Finset.range n, d j := by
          rw [hsum]
          ring
  linarith

theorem weighted_sq_le (s : Finset ℤ) (w b : ℤ → ℚ)
    (hw : ∀ k ∈ s, 0 ≤ w k) (hsum : ∑ k ∈ s, w k = 1) :
    (∑ k ∈ s, w k * b k) ^ 2 ≤ ∑ k ∈ s, w k * (b k) ^ 2 := by
  have h := Finset.sum_sq_le_sum_mul_sum_of_sq_eq_mul s
    (f := w) (g := fun k => w k * (b k) ^ 2) (r := fun k => w k * b k)
    hw (fun k hk => mul_nonneg (hw k hk) (sq_nonneg _))
    (fun k hk => by ring)
  rw [hsum, one_mul] at h
  exact h

theorem sum_sq_expansion (s : Finset ℤ) (w b : ℤ → ℚ) :
    ∑ k ∈ s, ∑ l ∈ s, w k * w l * (b k - b l) ^ 2
      = 2 * ((∑ k ∈ s, w k) * (∑ k ∈ s, w k * (b k) ^ 2) - (∑ k ∈ s, w k * b k) ^ 2) := by
  have hterm : ∀ k ∈ s, ∑ l ∈ s, w k * w l * (b k - b l) ^ 2
      = (w k * (b k) ^ 2) * (∑ l ∈ s, w l) - (w k * b k) * (∑ l ∈ s, w l * b l)
        - (w k * b k) * (∑ l ∈ s, w l * b l) + w k * (∑ l ∈ s, w l * (b l) ^ 2) := by
    intro k _
    calc ∑ l ∈ s, w k * w l * (b k - b l) ^ 2
        = ∑ l ∈ s, ((w k * (b k) ^ 2) * w l - (w k * b k) * (w l * b l)
            - (w k * b k) * (w l * b l) + w k * (w l * (b l) ^ 2)) :=
          Finset.sum_congr rfl fun l _ => by ring
      _ = (∑ l ∈ s, ((w k * (b k) ^ 2) * w l - (w k * b k) * (w l * b l)
            - (w k * b k) * (w l * b l))) + ∑ l ∈ s, w k * (w l * (b l) ^ 2) :=
          Finset.sum_add_distrib
      _ = ((∑ l ∈ s, ((w k * (b k) ^ 2) * w l - (w k * b k) * (w l * b l)))
            - ∑ l ∈ s, (w k * b k) * (w l * b l)) + ∑ l ∈ s, w k * (w l * (b l) ^ 2) := by
          rw [Finset.sum_sub_distrib]
      _ = (((∑ l ∈ s, (w k * (b k) ^ 2) * w l) - ∑ l ∈ s, (w k * b k) * (w l * b l))
            - ∑ l ∈ s, (w k * b k) * (w l * b l)) + ∑ l ∈ s, w k * (w l * (b l) ^ 2) := by
          rw [Finset.sum_sub_distrib]
      _ = (w k * (b k) ^ 2) * (∑ l ∈ s, w l) - (w k * b k) * (∑ l ∈ s, w l * b l)
            - (w k * b k) * (∑ l ∈ s, w l * b l) + w k * (∑ l ∈ s, w l * (b l) ^ 2) := by
          rw [← Finset.mul_sum, ← Finset.mul_sum, ← Finset.mul_sum]
  calc ∑ k ∈ s, ∑ l ∈ s, w k * w l * (b k - b l) ^ 2
      = ∑ k ∈ s, ((w k * (b k) ^ 2) * (∑ l ∈ s, w l) - (w k * b k) * (∑ l ∈ s, w l * b l)
          - (w k * b k) * (∑ l ∈ s, w l * b l) + w k * (∑ l ∈ s, w l * (b l) ^ 2)) :=
        Finset.sum_congr rfl hterm
    _ = (∑ k ∈ s, ((w k * (b k) ^ 2) * (∑ l ∈ s, w l) - (w k * b k) * (∑ l ∈ s, w l * b l)
          - (w k * b k) * (∑ l ∈ s, w l * b l))) + ∑ k ∈ s, w k * (∑ l ∈ s, w l * (b l) ^ 2) :=
        Finset.sum_add_distrib
    _ = (((∑ k ∈ s, (w k * (b k) ^ 2) * (∑ l ∈ s, w l))
          - ∑ k ∈ s, (w k * b k) * (∑ l ∈ s, w l * b l))
          - ∑ k ∈ s, (w k * b k) * (∑ l ∈ s, w l * b l))
          + ∑ k ∈ s, w k * (∑ l ∈ s, w l * (b l) ^ 2) := by
        rw [Finset.sum_sub_distrib, Finset.sum_sub_distrib]
    _ = (((∑ k ∈ s, w k * (b k) ^ 2) * (∑ l ∈ s, w l)
          - (∑ k ∈ s, w k * b k) * (∑ l ∈ s, w l * b l))
          - (∑ k ∈ s, w k * b k) * (∑ l ∈ s, w l * b l))
          + (∑ k ∈ s, w k) * (∑ l ∈ s, w l * (b l) ^ 2) := by
        rw [← Finset.sum_mul, ← Finset.sum_mul, ← Finset.sum_mul]
    _ = 2 * ((∑ k ∈ s, w k) * (∑ k ∈ s, w k * (b k) ^ 2) - (∑ k ∈ s, w k * b k) ^ 2) := by
        ring

theorem jensen_eq_const (s : Finset ℤ) (w b : ℤ → ℚ)
    (hw : ∀ k ∈ s, 0 < w k) (hsum : ∑ k ∈ s, w k = 1)
    (heq : (∑ k ∈ s, w k * b k) ^ 2 = ∑ k ∈ s, w k * (b k) ^ 2) :
    ∀ k ∈ s, ∀ l ∈ s, b k = b l := by
  have hzero : ∑ k ∈ s, ∑ l ∈ s, w k * w l * (b k - b l) ^ 2 = 0 := by
    rw [sum_sq_expansion, hsum, one_mul, heq]
    ring
  intro k hk l hl
  have hinner : ∀ k ∈ s, 0 ≤ ∑ l ∈ s, w k * w l * (b k - b l) ^ 2 := by
    intro k hk
    refine Finset.sum_nonneg ?_
    intro l hl
    have := mul_pos (hw k hk) (hw l hl)
    positivity
  have h1 := (Finset.sum_eq_zero_iff_of_nonneg hinner).mp hzero k hk
  have h2 := (Finset.sum_eq_zero_iff_of_nonneg (fun l hl => by
    have := mul_pos (hw k hk) (hw l hl)
    positivity)).mp h1 l hl
  have hwk := hw k hk
  have hwl := hw l hl
  have hsq : (b k - b l) ^ 2 = 0 := by
    have hne : w k * w l ≠ 0 := ne_of_gt (mul_pos hwk hwl)
    have := mul_eq_zero.mp h2
    rcases this with h | h
    · exact absurd h hne
    · exact h
  have := pow_eq_zero_iff (n := 2) (by omega) |>.mp hsq
  linarith [this]

theorem ssd_mean_min (n : ℕ) (g : ℕ → ℚ) (c : ℚ) :
    ∑ i ∈ Finset.range n, (g i - (∑ i ∈ Finset.range n, g i) / (n : ℚ)) ^ 2
      ≤ ∑ i ∈ Finset.range n, (g i - c) ^ 2 := by
  by_cases hn : n = 0
  · subst hn
    simp
  · set mu := (∑ i ∈ Finset.range n, g i) / (n : ℚ) with hmu
    have hnq : ((n : ℚ)) ≠ 0 := by
      exact_mod_cast hn
    have hsummu : ∑ i ∈ Finset.range n, (g i - mu) = 0 := by
      rw [Finset.sum_sub_distrib, Finset.sum_const, Finset.card_range, hmu]
      field_simp
    have hexp : ∀ i ∈ Finset.range n, (g i - c) ^ 2
        = (g i - mu) ^ 2 + 2 * (mu - c) * (g i - mu) + (mu - c) ^ 2 := by
      intro i _
      ring
    rw [Finset.sum_congr rfl hexp]
    rw [Finset.sum_add_distrib, Finset.sum_add_distrib, ← Finset.mul_sum, hsummu,
      Finset.sum_const, Finset.card_range, nsmul_eq_mul]
    have hpos : (0 : ℚ) ≤ (n : ℚ) * (mu - c) ^ 2 := by positivity
    linarith

theorem getD_map_list (l : List ℚ) (f : ℚ → ℚ) (i : ℕ) (hi : i < l.length) :
    (l.map f).getD i 0 = f (l.getD i 0) := by
  rw [List.getD_eq_getElem?_getD, List.getElem?_map, List.getElem?_eq_getElem hi]
  rw [List.getD_eq_getElem?_getD, List.getElem?_eq_getElem hi]
  rfl

theorem lmean_eq (l : List ℚ) :
    lmean l = (∑ i ∈ Finset.range l.length, l.getD i 0) / (l.length : ℚ) := by
  unfold lmean
  rw [list_sum_getD]

theorem lvar_eq (l : List ℚ) :
    lvar l = (∑ i ∈ Finset.range l.length, (l.getD i 0 - lmean l) ^ 2) / (l.length : ℚ) := by
  unfold lvar
  congr 1
  rw [list_sum_getD, List.length_map]
  refine Finset.sum_congr rfl ?_
  intro i hi
  rw [Finset.mem_range] at hi
  rw [getD_map_list l _ i hi]

theorem smooth_series_getD (w : ℤ → ℚ) (r : ℕ) (x : List ℚ) (i : ℕ) (hi : i < x.length) :
    (smooth_series w r x).getD i 0
      = ∑ k ∈ Finset.Icc (-(r : ℤ)) (r : ℤ),
          w k * x.getD (reflectIdx x.length ((i : ℤ) + k)) 0 := by
  unfold smooth_series
  rw [correlate1d_getD w r reflectIdx x i hi]
  exact sum_range_eq_sum_Icc r
    (fun k => w k * x.getD (reflectIdx x.length ((i : ℤ) + k)) 0)

theorem smooth_series_dev (w : ℤ → ℚ) (r : ℕ) (x : List ℚ)
    (hsum : ∑ k ∈ Finset.Icc (-(r : ℤ)) (r : ℤ), w k = 1)
    (i : ℕ) (hi : i < x.length) (mu : ℚ) :
    (smooth_series w r x).getD i 0 - mu
      = ∑ k ∈ Finset.Icc (-(r : ℤ)) (r : ℤ),
          w k * (x.getD (reflectIdx x.length ((i : ℤ) + k)) 0 - mu) := by
  calc (smooth_series w r x).getD i 0 - mu
      = (∑ k ∈ Finset.Icc (-(r : ℤ)) (r : ℤ),
          w k * x.getD (reflectIdx x.length ((i : ℤ) + k)) 0)
        - (∑ k ∈ Finset.Icc (-(r : ℤ)) (r : ℤ), w k) * mu := by
        rw [smooth_series_getD w r x i hi, hsum, one_mul]
    _ = ∑ k ∈ Finset.Icc (-(r : ℤ)) (r : ℤ),
          (w k * x.getD (reflectIdx x.length ((i : ℤ) + k)) 0 - w k * mu) := by
        rw [Finset.sum_mul, ← Finset.sum_sub_distrib]
    _ = ∑ k ∈ Finset.Icc (-(r : ℤ)) (r : ℤ),
          w k * (x.getD (reflectIdx x.length ((i : ℤ) + k)) 0 - mu) :=
        Finset.sum_congr rfl fun k _ => by ring

theorem smooth_jensen_pointwise (w : ℤ → ℚ) (r : ℕ) (x : List ℚ)
    (hwnn : ∀ k ∈ Finset.Icc (-(r : ℤ)) (r : ℤ), 0 ≤ w k)
    (hsum : ∑ k ∈ Finset.Icc (-(r : ℤ)) (r : ℤ), w k = 1) :
    ∀ i ∈ Finset.range x.length,
      ((smooth_series w r x).getD i 0 - lmean x) ^ 2
        ≤ ∑ k ∈ Finset.Icc (-(r : ℤ)) (r : ℤ),
            w k * (x.getD (reflectIdx x.length ((i : ℤ) + k)) 0 - lmean x) ^ 2 := by
  intro i hi
  rw [Finset.mem_range] at hi
  rw [smooth_series_dev w r x hsum i hi (lmean x)]
  exact weighted_sq_le (Finset.Icc (-(r : ℤ)) (r : ℤ)) w
    (fun k => x.getD (reflectIdx x.length ((i : ℤ) + k)) 0 - lmean x) hwnn hsum

theorem smooth_jensen_col (w : ℤ → ℚ) (r : ℕ) (x : List ℚ) (hn : 0 < x.length)
    (hsym : ∀ k ∈ Finset.Icc (-(r : ℤ)) (r : ℤ), w (-k) = w k)
    (hsum : ∑ k ∈ Finset.Icc (-(r : ℤ)) (r : ℤ), w k = 1) :
    ∑ i ∈ Finset.range x.length,
        ∑ k ∈ Finset.Icc (-(r : ℤ)) (r : ℤ),
          w k * (x.getD (reflectIdx x.length ((i : ℤ) + k)) 0 - lmean x) ^ 2
      = ∑ j ∈ Finset.range x.length, (x.getD j 0 - lmean x) ^ 2 := by
  rw [Finset.sum_comm]
  have hpull : ∀ k ∈ Finset.Icc (-(r : ℤ)) (r : ℤ),
      ∑ i ∈ Finset.range x.length,
          w k * (x.getD (reflectIdx x.length ((i : ℤ) + k)) 0 - lmean x) ^ 2
        = w k * ∑ i ∈ Finset.range x.length,
            (x.getD (reflectIdx x.length ((i : ℤ) + k)) 0 - lmean x) ^ 2 :=
    fun k _ => (Finset.mul_sum _ _ _).symm
  rw [Finset.sum_congr rfl hpull]
  exact kernel_column x.length hn (fun j => (x.getD j 0 - lmean x) ^ 2) w r hsym hsum

theorem smooth_mean_ssd (w : ℤ → ℚ) (r : ℕ) (x : List ℚ) :
    ∑ i ∈ Finset.range x.length,
        ((smooth_series w r x).getD i 0 - lmean (smooth_series w r x)) ^ 2
      ≤ ∑ i ∈ Finset.range x.length,
          ((smooth_series w r x).getD i 0 - lmean x) ^ 2 := by
  have hlen := smooth_series_length w r x
  have hm : lmean (smooth_series w r x)
      = (∑ i ∈ Finset.range x.length, (smooth_series w r x).getD i 0) / (x.length : ℚ) := by
    rw [lmean_eq, hlen]
  rw [hm]
  exact ssd_mean_min x.length (fun i => (smooth_series w r x).getD i 0) (lmean x)

/-- C4: Gaussian smoothing preserves sequence length and does not increase the
population variance; for an everywhere-positive symmetric normalized kernel of
radius at least 1 (as the Gaussian kernel of the default sigma = 1.0 is, with
radius 4), the variances are equal exactly when the input is constant. -/
theorem smooth_series_variance (w : ℤ → ℚ) (r : ℕ) (x : List ℚ)
    (hsym : ∀ k ∈ Finset.Icc (-(r : ℤ)) (r : ℤ), w (-k) = w k)
    (hpos : ∀ k ∈ Finset.Icc (-(r : ℤ)) (r : ℤ), 0 < w k)
    (hsum : ∑ k ∈ Finset.Icc (-(r : ℤ)) (r : ℤ), w k = 1)
    (hr : 1 ≤ r) :
    (smooth_series w r x).length = x.length ∧
    lvar (smooth_series w r x) ≤ lvar x ∧
    (lvar (smooth_series w r x) = lvar x ↔ isConstList x) := by
  have hlen := smooth_series_length w r x
  have hwnn : ∀ k ∈ Finset.Icc (-(r : ℤ)) (r : ℤ), 0 ≤ w k :=
    fun k hk => le_of_lt (hpos k hk)
  by_cases hn0 : x.length = 0
  · have hx : x = [] := List.length_eq_zero.mp hn0
    subst hx
    have hout : smooth_series w r [] = [] :=
      List.length_eq_zero.mp (by simpa using hlen)
    rw [hout]
    refine ⟨rfl, le_refl _, ?_⟩
    constructor
    · intro _ a ha
      simp at ha
    · intro _
      rfl
  · have hn : 0 < x.length := Nat.pos_of_ne_zero hn0
    have hnq : ((x.length : ℚ)) ≠ 0 := Nat.cast_ne_zero.mpr hn0
    have hnqpos : (0 : ℚ) < (x.length : ℚ) := by positivity
    have hvar_out : lvar (smooth_series w r x)
        = (∑ i ∈ Finset.range x.length,
            ((smooth_series w r x).getD i 0 - lmean (smooth_series w r x)) ^ 2)
          / (x.length : ℚ) := by
      rw [lvar_eq, hlen]
    have hvar_x : lvar x
        = (∑ j ∈ Finset.range x.length, (x.getD j 0 - lmean x) ^ 2) / (x.length : ℚ) :=
      lvar_eq x
    have hmid : ∑ i ∈ Finset.range x.length,
        ((smooth_series w r x).getD i 0 - lmean x) ^ 2
        ≤ ∑ j ∈ Finset.range x.length, (x.getD j 0 - lmean x) ^ 2 := by
      calc ∑ i ∈ Finset.range x.length,
          ((smooth_series w r x).getD i 0 - lmean x) ^ 2
          ≤ ∑ i ∈ Finset.range x.length,
              ∑ k ∈ Finset.Icc (-(r : ℤ)) (r : ℤ),
                w k * (x.getD (reflectIdx x.length ((i : ℤ) + k)) 0 - lmean x) ^ 2 :=
            Finset.sum_le_sum (smooth_jensen_pointwise w r x hwnn hsum)
        _ = ∑ j ∈ Finset.range x.length, (x.getD j 0 - lmean x) ^ 2 :=
            smooth_jensen_col w r x hn hsym hsum
    have hle : lvar (smooth_series w r x) ≤ lvar x := by
      rw [hvar_out, hvar_x]
      exact div_le_div_of_nonneg_right
        (le_trans (smooth_mean_ssd w r x) hmid) (le_of_lt hnqpos)
    refine ⟨hlen, hle, ?_, ?_⟩
    · -- equality implies constant
      intro heq
      rw [hvar_out, hvar_x, div_eq_div_iff hnq hnq] at heq
      have hnum := mul_right_cancel₀ hnq heq
      -- squeeze: SB = SC
      have hBC : ∑ i ∈ Finset.range x.length,
          ((smooth_series w r x).getD i 0 - lmean x) ^ 2
          = ∑ i ∈ Finset.range x.length,
              ∑ k ∈ Finset.Icc (-(r : ℤ)) (r : ℤ),
                w k * (x.getD (reflectIdx x.length ((i : ℤ) + k)) 0 - lmean x) ^ 2 := by
        have h1 := smooth_mean_ssd w r x
        have h2 := Finset.sum_le_sum (smooth_jensen_pointwise w r x hwnn hsum)
        have h3 := smooth_jensen_col w r x hn hsym hsum
        linarith
      have hperi := (Finset.sum_eq_sum_iff_of_le
        (smooth_jensen_pointwise w r x hwnn hsum)).mp hBC
      have hadj : ∀ i : ℕ, i + 1 < x.length → x.getD i 0 = x.getD (i + 1) 0 := by
        intro i hi1
        have hi : i < x.length := by omega
        have hiq := hperi i (Finset.mem_range.mpr hi)
        rw [smooth_series_dev w r x hsum i hi (lmean x)] at hiq
        have hall := jensen_eq_const (Finset.Icc (-(r : ℤ)) (r : ℤ)) w
          (fun k => x.getD (reflectIdx x.length ((i : ℤ) + k)) 0 - lmean x)
          hpos hsum hiq
        have h01 := hall 0 (by rw [Finset.mem_Icc]; omega) 1 (by rw [Finset.mem_Icc]; omega)
        dsimp only at h01
        have e0 : reflectIdx x.length ((i : ℤ) + 0) = i := by
          rw [add_zero]
          exact reflectIdx_self x.length i hi
        have e1 : reflectIdx x.length ((i : ℤ) + 1) = i + 1 := by
          rw [show (i : ℤ) + 1 = ((i + 1 : ℕ) : ℤ) by push_cast; ring]
          exact reflectIdx_self x.length (i + 1) hi1
        rw [e0, e1] at h01
        linarith
      have hchain : ∀ j, j < x.length → x.getD j 0 = x.getD 0 0 := by
        intro j
        induction j with
        | zero => intro _; rfl
        | succ m ih =>
            intro hj
            rw [← hadj m hj]
            exact ih (by omega)
      intro a ha b hb
      obtain ⟨ia, hia, rfl⟩ := List.mem_iff_getElem.mp ha
      obtain ⟨ib, hib, rfl⟩ := List.mem_iff_getElem.mp hb
      rw [← List.getD_eq_getElem x 0 hia, ← List.getD_eq_getElem x 0 hib,
        hchain ia hia, hchain ib hib]
    · -- constant implies equality
      intro hc
      have hout : smooth_series w r x = x := by
        apply List.ext_getElem hlen
        intro i h1 h2
        rw [← List.getD_eq_getElem (smooth_series w r x) 0 h1,
          ← List.getD_eq_getElem x 0 h2]
        rw [smooth_series_getD w r x i h2]
        have hval : ∀ k ∈ Finset.Icc (-(r : ℤ)) (r : ℤ),
            w k * x.getD (reflectIdx x.length ((i : ℤ) + k)) 0 = w k * x.getD i 0 := by
          intro k _
          congr 1
          have hr1 : reflectIdx x.length ((i : ℤ) + k) < x.length := reflectIdx_lt _ hn _
          have m1 : x.getD (reflectIdx x.length ((i : ℤ) + k)) 0 ∈ x := by
            rw [List.getD_eq_getElem x 0 hr1]
            exact List.getElem_mem hr1
          have m2 : x.getD i 0 ∈ x := by
            rw [List.getD_eq_getElem x 0 h2]
            exact List.getElem_mem h2
          exact hc _ m1 _ m2
        rw [Finset.sum_congr rfl hval, ← Finset.sum_mul, hsum, one_mul]
      rw [hout]

theorem exKernel1_Icc : Finset.Icc (-(1 : ℤ)) 1 = {-1, 0, 1} := by
  ext m
  simp only [Finset.mem_Icc, Finset.mem_insert, Finset.mem_singleton]
  omega

theorem smooth_series_variance_witness :
    (smooth_series exKernel1 1 [0, 5]).length = 2 ∧
    lvar (smooth_series exKernel1 1 [0, 5]) ≤ lvar [0, 5] := by
  have hsym : ∀ k ∈ Finset.Icc (-(1 : ℤ)) 1, exKernel1 (-k) = exKernel1 k := by
    intro k hk
    rw [Finset.mem_Icc] at hk
    obtain ⟨hk1, hk2⟩ := hk
    interval_cases k <;> norm_num [exKernel1]
  have hpos : ∀ k ∈ Finset.Icc (-(1 : ℤ)) 1, 0 < exKernel1 k := by
    intro k hk
    rw [Finset.mem_Icc] at hk
    obtain ⟨hk1, hk2⟩ := hk
    interval_cases k <;> norm_num [exKernel1]
  have hsum : ∑ k ∈ Finset.Icc (-(1 : ℤ)) 1, exKernel1 k = 1 := by
    rw [exKernel1_Icc]
    rw [Finset.sum_insert (by norm_num), Finset.sum_insert (by norm_num),
      Finset.sum_singleton]
    norm_num [exKernel1]
  have h := smooth_series_variance exKernel1 1 [0, 5] hsym hpos hsum le_rfl
  exact ⟨h.1, h.2.1⟩
